import Mathlib

/-!
Shallow embedding of `src/photo_portfolio/app.py` (a Streamlit photo-portfolio
application). The embedding covers the metadata store (`load_metadata`,
`save_metadata`, `update_photo_metadata`, `delete_photo`,
`update_metadata_from_exif`), the EXIF decoder (`get_exif_data`), the image
operations (`create_thumbnail`, `optimize_image`) and the upload pipeline
(`save_uploaded_photo`), together with theorems settling the specification
claims about them.

Python dictionaries are embedded as association lists with unique keys:
assignment replaces in place or appends, deletion removes the entry, lookup
finds the first (hence only) entry. File I/O is made explicit: functions that
read or write files take the relevant state as an argument and return the new
state. Python exceptions are embedded with `Except`/`Option`: a `try` block
becomes a match on the embedded result.
-/

/-- Python `d[k]` / `d.get(k)` on a string-keyed dict: first (only) binding. -/
def dictGet {α : Type} : List (String × α) → String → Option α
  | [], _ => none
  | (k', v') :: t, k => if k' = k then some v' else dictGet t k

/-- Python `d[k] = v`: replace the binding in place if the key is present,
otherwise append it. -/
def dictSet {α : Type} : List (String × α) → String → α → List (String × α)
  | [], k, v => [(k, v)]
  | (k', v') :: t, k, v => if k' = k then (k, v) :: t else (k', v') :: dictSet t k v

/-- Python `del d[k]`: remove the binding for `k` (keys are unique). -/
def dictErase {α : Type} : List (String × α) → String → List (String × α)
  | [], _ => []
  | (k', v') :: t, k => if k' = k then t else (k', v') :: dictErase t k

/-- Python `{**d, **(dict given by the pairs ps)}`: fold assignment over `ps`. -/
def dictInsertAll {α : Type} (d : List (String × α)) (ps : List (String × α)) :
    List (String × α) :=
  ps.foldl (fun acc p => dictSet acc p.1 p.2) d

/-- A stored metadata record for one photo: every value written by the source
on the modelled paths is a string (f-strings, `str(...)`, form fields). -/
abbrev Record := List (String × String)

/-- The `"photos"` dictionary of the metadata document: photo identity to
record. -/
abbrev Store := List (String × Record)

/-- The in-memory metadata document. The source guards `"photos" not in
metadata`, so the presence of the `"photos"` key is explicit. -/
structure Metadata where
  photos : Option Store
deriving DecidableEq, Repr

/-- State of the backing file `photos_metadata.json` as `load_metadata`
observes it: missing, present but not valid JSON, or parsed content. -/
inductive Doc
  | absent
  | unparsable
  | parsed (m : Metadata)
deriving DecidableEq, Repr

/-- Result of a call that can propagate a Python exception. -/
inductive LoadResult
  | ok (m : Metadata)
  | err
deriving DecidableEq, Repr

/-- Embedding of `load_metadata` (app.py lines 54-59): `open` on a missing
file raises `FileNotFoundError`, which the `except` clause catches, returning
`{"photos": {}}`; `json.load` on unparsable content raises
`json.JSONDecodeError`, which is not a `FileNotFoundError` and propagates. -/
def load_metadata : Doc → LoadResult
  | .absent => .ok ⟨some []⟩
  | .unparsable => .err
  | .parsed m => .ok m

/-- Embedding of `update_photo_metadata` (app.py lines 65-71). The store is
passed in place of the loaded file and returned in place of the saved file:
the function ensures the `"photos"` key exists and then assigns
`metadata["photos"][photo_path] = new_metadata` wholesale. -/
def update_photo_metadata (m : Metadata) (photo_path : String)
    (new_metadata : Record) : Metadata :=
  let s := m.photos.getD []
  ⟨some (dictSet s photo_path new_metadata)⟩

/-- The patch built by the admin edit form (app.py lines 84-90): exactly the
five editable fields, as a dict literal with distinct keys. -/
def editFormPatch (title location date settings desc : String) : Record :=
  [("title", title), ("location", location), ("date", date),
   ("camera_settings", settings), ("description", desc)]

/-- Embedding of `delete_photo` (app.py lines 816-826). Inputs: whether the
image file exists, the photo identity, and the loaded metadata document.
Output: (returned boolean, whether the file exists afterwards, the metadata
document afterwards). `os.remove` on a missing file raises, the handler
catches it and returns `False` before the metadata is touched. -/
def delete_photo (fileExists : Bool) (photo : String) (m : Metadata) :
    Bool × Bool × Metadata :=
  if fileExists then
    let s := m.photos.getD []
    if (dictGet s photo).isSome then (true, false, ⟨some (dictErase s photo)⟩)
    else (true, false, m)
  else (false, false, m)

/-- An EXIF tag value as handed over by PIL. `rat` is a rational pair of
non-negative integers (an int tuple on the Python side), `int` a plain
integer, `str` a value whose `str()` is the given string, and `malformed` a
corrupt value whose string conversion raises (cameras emit such tags). The
`isinstance(value, tuple)` checks of the source do not raise on any value. -/
inductive TagValue
  | str (s : String)
  | int (n : Nat)
  | rat (num den : Nat)
  | malformed
deriving DecidableEq, Repr

/-- Python `str(value)`: raises exactly for a `malformed` value. An int tuple
prints as `(num, den)`. -/
def strOfVal : TagValue → Except Unit String
  | .str s => .ok s
  | .int n => .ok (Nat.repr n)
  | .rat n d => .ok ("(" ++ Nat.repr n ++ ", " ++ Nat.repr d ++ ")")
  | .malformed => .error ()

/-- Unicode whitespace as CPython's `str.isspace()`/`str.strip()` recognize
it. -/
def isSpaceChar (c : Char) : Bool :=
  let n := c.toNat
  (9 ≤ n ∧ n ≤ 13) ∨ (28 ≤ n ∧ n ≤ 32) ∨ n = 133 ∨ n = 160 ∨ n = 5760 ∨
    (8192 ≤ n ∧ n ≤ 8202) ∨ n = 8232 ∨ n = 8233 ∨ n = 8239 ∨ n = 8287 ∨
    n = 12288

/-- Python `str.strip()`: drop whitespace from both ends. -/
def pyStrip (s : String) : String :=
  ((s.data.dropWhile isSpaceChar).reverse.dropWhile isSpaceChar).reverse.asString

/-- Gregorian leap year, as `datetime` uses. -/
def isLeap (y : Nat) : Bool := (y % 4 = 0 && y % 100 ≠ 0) || y % 400 = 0

/-- Days in a month of the proleptic Gregorian calendar. -/
def daysInMonth (y m : Nat) : Nat :=
  if m = 2 then (if isLeap y then 29 else 28)
  else if m = 4 ∨ m = 6 ∨ m = 9 ∨ m = 11 then 30
  else 31

/-- Left-pad a digit string with zeros to the given width (`strftime`
padding). -/
def padZero (width : Nat) (s : String) : String :=
  String.mk (List.replicate (width - s.length) '0') ++ s

/-- The source's date branch:
`datetime.strptime(s, %Y:%m:%d %H:%M:%S).strftime(%Y-%m-%d)`. Parses the
`YYYY:MM:DD HH:MM:SS` shape (numeric fields, in-range date and time, as
`datetime` validates) and re-renders `YYYY-MM-DD`; `none` embeds the
`ValueError` that the source's inner bare `except` swallows. -/
def parseExifDate (s : String) : Option String :=
  match s.splitOn " " with
  | [d, t] =>
    match d.splitOn ":", t.splitOn ":" with
    | [y, mo, da], [hh, mi, ss] =>
      match y.toNat?, mo.toNat?, da.toNat?, hh.toNat?, mi.toNat?, ss.toNat? with
      | some yn, some mon, some dan, some hn, some min, some sn =>
        if 1 ≤ yn ∧ yn ≤ 9999 ∧ 1 ≤ mon ∧ mon ≤ 12 ∧ 1 ≤ dan ∧
            dan ≤ daysInMonth yn mon ∧ hn ≤ 23 ∧ min ≤ 59 ∧ sn ≤ 59 then
          some (padZero 4 (Nat.repr yn) ++ "-" ++ padZero 2 (Nat.repr mon) ++
            "-" ++ padZero 2 (Nat.repr dan))
        else none
      | _, _, _, _, _, _ => none
    | _, _ => none
  | _ => none

/-- Round the exact rational `a / b` (with `b > 0`) to the nearest integer,
ties to even. This is the rounding primitive applied at each of the two
correctly-rounded steps of Python's pipeline: integer true division to the
nearest binary64 on its dyadic grid, and float formatting to the nearest
value on the decimal grid — each step is an exact-rational round-half-even at
the respective granularity. -/
def roundHalfEven (a b : Nat) : Nat :=
  let q := a / b
  let r := a % b
  if 2 * r < b then q
  else if b < 2 * r then q + 1
  else if q % 2 = 0 then q else q + 1

/-- Fuel-bounded floor of the base-2 logarithm; the fuel `n` always
suffices, and the structural recursion lets proofs evaluate it. -/
def log2Aux : Nat → Nat → Nat
  | 0, _ => 0
  | fuel + 1, n => if 2 ≤ n then log2Aux fuel (n / 2) + 1 else 0

/-- `⌊log₂ n⌋` for `n ≥ 1` (and `0` at `0`): Python's
`int.bit_length() - 1`. -/
def log2floor (n : Nat) : Nat := log2Aux n n

/-- Does `2 ^ t ≤ num / den` hold (for `num, den > 0`)? -/
def pow2LeDiv (t : Int) (num den : Nat) : Bool :=
  if 0 ≤ t then den * 2 ^ t.toNat ≤ num else den ≤ num * 2 ^ (-t).toNat

/-- The exponent of the leading binary digit of `num / den` (for
`num, den > 0`): the unique `e` with `2 ^ e ≤ num / den < 2 ^ (e + 1)`. -/
def leadExp (num den : Nat) : Int :=
  let e0 : Int := (log2floor num : Int) - (log2floor den : Int)
  if pow2LeDiv e0 num den then e0 else e0 - 1

/-- The IEEE-754 binary64 value nearest to `num / den` (for `den > 0`):
round to nearest with ties to even, the subnormal range on the fixed
`2 ^ (-1074)` grid, and `none` for overflow beyond the largest finite
double. The result is a dyadic pair `(p, s)` denoting `p / 2 ^ s`. The
overflow test `log2floor m < 1024 + s` is the comparison
`m < 2 ^ (1024 + s)`, i.e. `m / 2 ^ s < 2 ^ 1024`, stated through the bit
length so proofs can evaluate it. This is the rounding CPython's integer
true division performs (validated against CPython on the full branch
structure, including the overflow and subnormal boundaries). -/
def toBinary64 (num den : Nat) : Option (Nat × Nat) :=
  if num = 0 then some (0, 0)
  else
    let e := leadExp num den
    if e < -1022 then some (roundHalfEven (num * 2 ^ 1074) den, 1074)
    else
      let s : Int := 52 - e
      let m := if 0 ≤ s then roundHalfEven (num * 2 ^ s.toNat) den
        else roundHalfEven num (den * 2 ^ (-s).toNat)
      let t : Int := 1024 + s
      if 0 ≤ t ∧ (log2floor m : Int) < t then
        some (if 0 ≤ s then (m, s.toNat) else (m * 2 ^ (-s).toNat, 0))
      else none

/-- Python integer true division `num / den` as the source performs it on
tag rationals: `ZeroDivisionError` for a zero denominator and
`OverflowError` when the quotient exceeds the largest finite double (both
embedded as `.error`), otherwise the binary64 quotient as a dyadic pair. -/
def pyDiv (num den : Nat) : Except Unit (Nat × Nat) :=
  if den = 0 then .error ()
  else
    match toBinary64 num den with
    | none => .error ()
    | some pd => .ok pd

/-- Python `f-string` format `{x:.0f}` of a finite non-negative double given
as a dyadic pair `(p, s)` (value `p / 2 ^ s`): the correctly rounded integer
rendering, ties to even. -/
def fmtFixed0 (pd : Nat × Nat) : String :=
  Nat.repr (roundHalfEven pd.1 (2 ^ pd.2))

/-- Python `f-string` format `{x:.1f}` of a finite non-negative double given
as a dyadic pair `(p, s)`: the correctly rounded one-decimal rendering, ties
to even. -/
def fmtFixed1 (pd : Nat × Nat) : String :=
  let t := roundHalfEven (pd.1 * 10) (2 ^ pd.2)
  Nat.repr (t / 10) ++ "." ++ Nat.repr (t % 10)

/-- One iteration of the tag loop of `get_exif_data` (app.py lines 220-246):
dispatch on the decoded tag name and set the corresponding field. `.error`
embeds a Python exception escaping the loop body: string conversion of a
malformed value, or a `ZeroDivisionError`/`OverflowError` from the true
division in the rational branches (`pyDiv`); only the `DateTimeOriginal`
branch has an inner `try` swallowing its failures. -/
def processTag (acc : Record) (t : String × TagValue) : Except Unit Record :=
  let tag := t.1
  let v := t.2
  if tag = "Model" then
    (strOfVal v).map fun s => dictSet acc "camera" (pyStrip s)
  else if tag = "LensModel" then
    (strOfVal v).map fun s => dictSet acc "lens" (pyStrip s)
  else if tag = "DateTimeOriginal" then
    .ok (match strOfVal v with
      | .error _ => acc
      | .ok s =>
        match parseExifDate s with
        | none => acc
        | some ds => dictSet acc "date" ds)
  else if tag = "FNumber" then
    match v with
    | .rat n d =>
      match pyDiv n d with
      | .error _ => .error ()
      | .ok pd => .ok (dictSet acc "f_number" ("f/" ++ fmtFixed1 pd))
    | _ => .ok acc
  else if tag = "ExposureTime" then
    match v with
    | .rat n d =>
      if d ≤ n then
        match pyDiv n d with
        | .error _ => .error ()
        | .ok pd => .ok (dictSet acc "exposure" (fmtFixed1 pd ++ "秒"))
      else
        match pyDiv d n with
        | .error _ => .error ()
        | .ok pd => .ok (dictSet acc "exposure" ("1/" ++ fmtFixed0 pd ++ "秒"))
    | _ => .ok acc
  else if tag = "ISOSpeedRatings" then
    (strOfVal v).map fun s => dictSet acc "iso" ("ISO " ++ s)
  else if tag = "FocalLength" then
    match v with
    | .rat n d =>
      match pyDiv n d with
      | .error _ => .error ()
      | .ok pd => .ok (dictSet acc "focal_length" (fmtFixed0 pd ++ "mm"))
    | _ => .ok acc
  else .ok acc

/-- The tag loop of `get_exif_data`, threading the accumulated record through
`processTag`; an `.error` is an exception escaping the loop. -/
def processLoop : Record → List (String × TagValue) → Except Unit Record
  | acc, [] => .ok acc
  | acc, t :: rest =>
    match processTag acc t with
    | .error e => .error e
    | .ok acc' => processLoop acc' rest

/-- The whole tag loop started on the empty record. -/
def processAll (tags : List (String × TagValue)) : Except Unit Record :=
  processLoop [] tags

/-- An image file as `get_exif_data` observes it: unreadable bytes
(`Image.open`/`_getexif` raises), readable with no EXIF block, or readable
with a decoded tag dictionary. -/
inductive ImgFile
  | unreadable
  | noExif
  | withExif (tags : List (String × TagValue))
deriving DecidableEq, Repr

/-- Embedding of `get_exif_data` (app.py lines 211-251): the outer
`try`/`except Exception` catches an unreadable file and any exception escaping
the tag loop, returning `{}`; an absent EXIF block also yields `{}`. -/
def get_exif_data (f : ImgFile) : Record :=
  match f with
  | .unreadable => []
  | .noExif => []
  | .withExif tags =>
    match processAll tags with
    | .ok r => r
    | .error _ => []

/-- The field names `get_exif_data` can ever write. -/
def exifKeys : List String :=
  ["camera", "lens", "date", "f_number", "exposure", "iso", "focal_length"]

/-- `os.path.splitext` on a plain filename, over the character list: split
before the last dot, except that a dot preceded only by dots (a leading-dot
name such as `.bashrc`) starts no extension. -/
def splitextData (l : List Char) : List Char × List Char :=
  match l.reverse.findIdx? (· = '.') with
  | none => (l, [])
  | some i =>
    let pos := l.length - 1 - i
    if (l.take pos).all (· = '.') then (l, [])
    else (l.take pos, l.drop pos)

/-- `os.path.splitext` on a plain filename (no directory separators occur in
the modelled calls): returns `(base, ext)`. -/
def splitext (s : String) : String × String :=
  ((splitextData s.data).1.asString, (splitextData s.data).2.asString)

/-- Python list building from optional values (`if k in d: xs.append(d[k])`). -/
def optToList : Option String → List String
  | some x => [x]
  | none => []

/-- Embedding of `update_metadata_from_exif` (app.py lines 307-347). Inputs:
whether the image file exists, the file content (for `get_exif_data`), the
loaded metadata document, the photo identity and today's date string. Output:
the returned boolean and the metadata document afterwards. A document without
a `"photos"` key makes `metadata["photos"]` raise `KeyError`, caught by the
`except` clause. The stored record is replaced by the freshly built
seven-field dictionary. -/
def update_metadata_from_exif (fileExists : Bool) (file : ImgFile)
    (m : Metadata) (photo_path : String) (today : String) : Bool × Metadata :=
  if fileExists then
    let exif := get_exif_data file
    match m.photos with
    | none => (false, m)
    | some s =>
      let existing := (dictGet s photo_path).getD []
      let cs := optToList (dictGet exif "f_number") ++
        optToList (dictGet exif "exposure") ++ optToList (dictGet exif "iso")
      let newRec : Record :=
        [("title", (dictGet existing "title").getD (splitext photo_path).1),
         ("location", (dictGet existing "location").getD ""),
         ("date", (dictGet exif "date").getD
            ((dictGet existing "date").getD today)),
         ("camera_settings",
            if cs ≠ [] then String.intercalate ", " cs
            else (dictGet existing "camera_settings").getD ""),
         ("camera", (dictGet exif "camera").getD
            ((dictGet existing "camera").getD "")),
         ("lens", (dictGet exif "lens").getD
            ((dictGet existing "lens").getD "")),
         ("description", (dictGet existing "description").getD "")]
      (true, ⟨some (dictSet s photo_path newRec)⟩)
  else (false, m)

/-- A PIL image object: decodable with pixel dimensions and an EXIF
orientation tag, or corrupt bytes on which image operations raise. -/
inductive Img
  | valid (w h orient : Nat)
  | corrupt
deriving DecidableEq, Repr

/-- The category directory contents as read by `create_thumbnail`: path to
image bytes. -/
abbrev FS := List (String × Img)

/-- PIL `Image.thumbnail(size, LANCZOS)`: raises on corrupt bytes, otherwise
bounds both dimensions (the aspect-ratio arithmetic of the library is
abstracted to the bounding behaviour; no claim depends on the exact
dimensions). -/
def pilThumbnail : Img → Nat → Nat → Except Unit Img
  | .corrupt, _, _ => .error ()
  | .valid w h o, mw, mh => .ok (.valid (min w mw) (min h mh) o)

/-- PIL `ImageOps.exif_transpose`: raises on corrupt bytes, otherwise applies
the orientation tag (swapping dimensions for the transposed orientations) and
normalizes it. -/
def pilExifTranspose : Img → Except Unit Img
  | .corrupt => .error ()
  | .valid w h o => .ok (if 5 ≤ o ∧ o ≤ 8 then .valid h w 1 else .valid w h 1)

/-- Embedding of `create_thumbnail` (app.py lines 253-262): opens the path,
resizes within `size`; any exception is caught and `None` returned. The
filesystem is threaded through unchanged: the body performs no write. -/
def create_thumbnail (fs : FS) (path : String) (mw mh : Nat) :
    Option Img × FS :=
  (match dictGet fs path with
   | none => none
   | some img =>
     match pilThumbnail img mw mh with
     | .error _ => none
     | .ok t => some t,
   fs)

/-- Embedding of `optimize_image` (app.py lines 788-798): bound to
`max_size`, then orientation-correct; on any exception return the input
image. -/
def optimize_image (image : Img) (max_size : Nat) : Img :=
  match (pilThumbnail image max_size max_size).bind pilExifTranspose with
  | .ok o => o
  | .error _ => image

/-- Decimal value of a digit character (inverse of `Nat.digitChar` below
ten). -/
def digitVal (c : Char) : Nat := c.toNat - Char.toNat '0'

/-- Accumulator form of reading a decimal digit list back as a number. -/
def unreprAux : List Char → Nat → Nat
  | [], a => a
  | c :: cs, a => unreprAux cs (a * 10 + digitVal c)

/-- Read a decimal digit list back as a number (left inverse of
`Nat.repr`). -/
def unrepr (l : List Char) : Nat := unreprAux l 0

/-- The probed name `f"{base}_{counter}{ext}"` of the upload collision
loop. -/
def nthName (base ext : String) (n : Nat) : String :=
  base ++ "_" ++ Nat.repr n ++ ext

/-- The collision loop of `save_uploaded_photo` (app.py lines 277-281):
starting at `counter`, return the first probed name that does not exist in
the category directory. The loop needs no fuel in Python; here the fuel
`used.length + 1` is proven sufficient (`exists_fresh_nthName`). -/
def probeName (used : List String) (base ext : String) :
    Nat → Nat → Option String
  | 0, _ => none
  | fuel + 1, counter =>
    let name := nthName base ext counter
    if name ∈ used then probeName used base ext fuel (counter + 1)
    else some name

/-- The identity-resolution step of `save_uploaded_photo` (app.py lines
272-281): if the desired filename does not exist in the category directory
(`used` lists its entries) it is kept; otherwise `{base}_{n}{ext}` is probed
for `n = 1, 2, …`. -/
def resolveIdentity (used : List String) (filename : String) : Option String :=
  if filename ∈ used then
    probeName used (splitext filename).1 (splitext filename).2
      (used.length + 1) 1
  else some filename

/-- Sequential uploads of the same desired filename: each upload resolves an
identity against the current directory contents and writes the file, adding
the resolved name to the directory. Returns the resolved identities in
order. -/
def uploadSeq (filename : String) : List String → Nat → List String
  | _, 0 => []
  | used, k + 1 =>
    match resolveIdentity used filename with
    | none => []
    | some fn => fn :: uploadSeq filename (fn :: used) k

/-- Embedding of the success path of `save_uploaded_photo` (app.py lines
264-302): resolve the identity, write the file (the directory listing gains
the resolved name), decode EXIF from the written bytes, and store
`{"category": …, "upload_date": now, "title": base-of-resolved-name,
**exif_data}` under the resolved identity. Output: (returned pair, directory
contents afterwards, metadata document afterwards). -/
def save_uploaded_photo (used : List String) (name category : String)
    (file : ImgFile) (m : Metadata) (now : String) :
    (Bool × String) × List String × Metadata :=
  match resolveIdentity used name with
  | none => ((false, ""), used, m)
  | some fn =>
    let exif := get_exif_data file
    let s := m.photos.getD []
    let fixedPart : Record :=
      [("category", category), ("upload_date", now),
       ("title", (splitext fn).1)]
    ((true, fn), fn :: used, ⟨some (dictSet s fn (dictInsertAll fixedPart exif))⟩)

theorem dictGet_dictSet_self {α : Type} (d : List (String × α)) (k : String)
    (v : α) : dictGet (dictSet d k v) k = some v := by
  induction d with
  | nil => simp [dictSet, dictGet]
  | cons p t ih =>
    by_cases h : p.1 = k
    · simp [dictSet, dictGet, h]
    · simp [dictSet, dictGet, h, ih]

theorem dictGet_dictSet_ne {α : Type} (d : List (String × α)) {k k' : String}
    (v : α) (h : k ≠ k') : dictGet (dictSet d k v) k' = dictGet d k' := by
  induction d with
  | nil => simp [dictSet, dictGet, h]
  | cons p t ih =>
    by_cases hp : p.1 = k
    · simp [dictSet, dictGet, hp, h]
    · simp [dictSet, dictGet, hp, ih]

theorem mem_dictSet {α : Type} {d : List (String × α)} {k : String} {v : α}
    {p : String × α} : p ∈ dictSet d k v → p = (k, v) ∨ p ∈ d := by
  induction d with
  | nil =>
    intro h
    simpa [dictSet] using h
  | cons q t ih =>
    intro h
    obtain ⟨a, b⟩ := q
    by_cases hq : a = k
    · simp only [dictSet, if_pos hq, List.mem_cons] at h
      rcases h with h | h
      · exact Or.inl h
      · exact Or.inr (List.mem_cons_of_mem _ h)
    · simp only [dictSet, if_neg hq, List.mem_cons] at h
      rcases h with h | h
      · exact Or.inr (h ▸ List.mem_cons_self _ _)
      · rcases ih h with h' | h'
        · exact Or.inl h'
        · exact Or.inr (List.mem_cons_of_mem _ h')

/-- Claim C1 counterexample: with a stored record whose `location` is
`"Tokyo"`, updating through `update_photo_metadata` with a patch containing
only a new title erases the location: the stored record becomes exactly the
patch, so `location` is gone while the claim says it must still be
`"Tokyo"`. -/
theorem c1_counterexample :
    dictGet ((update_photo_metadata
        ⟨some [("p.jpg", [("title", "Old"), ("location", "Tokyo")])]⟩
        "p.jpg" [("title", "New")]).photos.getD []) "p.jpg" =
      some [("title", "New")] ∧
    (dictGet ((update_photo_metadata
        ⟨some [("p.jpg", [("title", "Old"), ("location", "Tokyo")])]⟩
        "p.jpg" [("title", "New")]).photos.getD []) "p.jpg").bind
        (fun r => dictGet r "location") = none := by
  constructor <;> rfl

/-- Claim C1 (amended): `update_photo_metadata` does not merge: it stores the
patch as the complete new record for the identity, so every field omitted
from the patch is dropped rather than preserved. -/
theorem c1_amended (m : Metadata) (photo_path : String) (patch : Record) :
    dictGet ((update_photo_metadata m photo_path patch).photos.getD [])
      photo_path = some patch := by
  unfold update_photo_metadata
  exact dictGet_dictSet_self _ _ _

/-- Claim C4 counterexample: on an unparsable metadata document,
`load_metadata` does not return the empty store; the `json.JSONDecodeError`
propagates (only `FileNotFoundError` is caught). -/
theorem c4_counterexample :
    load_metadata Doc.unparsable = LoadResult.err ∧
    load_metadata Doc.unparsable ≠ LoadResult.ok ⟨some []⟩ := by
  constructor
  · rfl
  · intro h
    exact LoadResult.noConfusion h

/-- Claim C4 (amended): `load_metadata` returns the empty store only when the
backing document is absent; when the document exists but is unparsable the
parse error propagates to the caller, and when it parses the parsed content
is returned. -/
theorem c4_amended :
    load_metadata Doc.absent = LoadResult.ok ⟨some []⟩ ∧
    load_metadata Doc.unparsable = LoadResult.err ∧
    ∀ m, load_metadata (Doc.parsed m) = LoadResult.ok m := by
  exact ⟨rfl, rfl, fun _ => rfl⟩

/-- Claim C7 counterexample: deleting a photo whose file is missing but whose
metadata record exists does not remove the metadata record: `os.remove`
raises first, the handler returns `False`, and the record is still stored. -/
theorem c7_counterexample :
    delete_photo false "a.jpg" ⟨some [("a.jpg", [("title", "x")])]⟩ =
      (false, false, ⟨some [("a.jpg", [("title", "x")])]⟩) ∧
    dictGet ((delete_photo false "a.jpg"
        ⟨some [("a.jpg", [("title", "x")])]⟩).2.2.photos.getD []) "a.jpg" =
      some [("title", "x")] := by
  constructor <;> rfl

/-- Claim C7 (amended): when the image file is missing, `delete_photo` does
not raise but returns `False` and leaves the metadata document unchanged
(the record is kept, not removed); when the file exists and no metadata
record is present, it removes the file, leaves the store unchanged and does
not raise. -/
theorem c7_amended :
    (∀ (photo : String) (m : Metadata),
      delete_photo false photo m = (false, false, m)) ∧
    (∀ (photo : String) (m : Metadata),
      dictGet (m.photos.getD []) photo = none →
      delete_photo true photo m = (true, false, m)) := by
  constructor
  · intro photo m
    rfl
  · intro photo m h
    simp [delete_photo, h]

/-- Claim C7 witness: the second part of `c7_amended` at a concrete input. -/
theorem c7_witness :
    delete_photo true "b.jpg" ⟨some []⟩ = (true, false, ⟨some []⟩) :=
  c7_amended.2 "b.jpg" ⟨some []⟩ rfl

/-- Claim C2 counterexample: a stored record carrying `category` and
`upload_date` loses both under the admin edit path: `update_photo_metadata`
with the edit-form patch replaces the record, and the replacement has no
`category` or `upload_date` entry. -/
theorem c2_counterexample :
    dictGet ((update_photo_metadata
        ⟨some [("p.jpg", [("category", "風景"),
          ("upload_date", "2024-01-01 12:00:00"), ("title", "p")])]⟩
        "p.jpg" (editFormPatch "t" "l" "d" "s" "e")).photos.getD [])
        "p.jpg" = some (editFormPatch "t" "l" "d" "s" "e") ∧
    (dictGet ((update_photo_metadata
        ⟨some [("p.jpg", [("category", "風景"),
          ("upload_date", "2024-01-01 12:00:00"), ("title", "p")])]⟩
        "p.jpg" (editFormPatch "t" "l" "d" "s" "e")).photos.getD [])
        "p.jpg").bind (fun r => dictGet r "category") = none ∧
    (dictGet ((update_photo_metadata
        ⟨some [("p.jpg", [("category", "風景"),
          ("upload_date", "2024-01-01 12:00:00"), ("title", "p")])]⟩
        "p.jpg" (editFormPatch "t" "l" "d" "s" "e")).photos.getD [])
        "p.jpg").bind (fun r => dictGet r "upload_date") = none := by
  refine ⟨rfl, rfl, rfl⟩

/-- Claim C2 (amended): both later edit paths replace the stored record
wholesale with a dictionary that has no `category` and no `upload_date`
entry, so far from being preserved, category and upload timestamp are removed
from the record by any later metadata edit. -/
theorem c2_amended :
    (∀ (m : Metadata) (p t l d cs desc : String),
      (dictGet ((update_photo_metadata m p
          (editFormPatch t l d cs desc)).photos.getD []) p).bind
          (fun r => dictGet r "category") = none ∧
      (dictGet ((update_photo_metadata m p
          (editFormPatch t l d cs desc)).photos.getD []) p).bind
          (fun r => dictGet r "upload_date") = none) ∧
    (∀ (file : ImgFile) (s : Store) (p today : String),
      (update_metadata_from_exif true file ⟨some s⟩ p today).1 = true ∧
      (dictGet ((update_metadata_from_exif true file
          ⟨some s⟩ p today).2.photos.getD []) p).bind
          (fun r => dictGet r "category") = none ∧
      (dictGet ((update_metadata_from_exif true file
          ⟨some s⟩ p today).2.photos.getD []) p).bind
          (fun r => dictGet r "upload_date") = none) := by
  constructor
  · intro m p t l d cs desc
    constructor
    · simp [update_photo_metadata, dictGet_dictSet_self, editFormPatch, dictGet]
    · simp [update_photo_metadata, dictGet_dictSet_self, editFormPatch, dictGet]
  · intro file s p today
    refine ⟨rfl, ?_, ?_⟩
    · simp [update_metadata_from_exif, dictGet_dictSet_self, dictGet]
    · simp [update_metadata_from_exif, dictGet_dictSet_self, dictGet]

/-- Claim C5 counterexample: an input whose `Model` tag is valid but whose
`ISOSpeedRatings` tag is malformed decodes to the empty record — the camera
field is lost as well, where the claim requires `camera` present and only
`iso` absent. -/
theorem c5_counterexample :
    get_exif_data (ImgFile.withExif [("Model", TagValue.str "Canon EOS"),
      ("ISOSpeedRatings", TagValue.malformed)]) = [] ∧
    dictGet (get_exif_data (ImgFile.withExif
      [("Model", TagValue.str "Canon EOS"),
       ("ISOSpeedRatings", TagValue.malformed)])) "camera" = none := by
  exact ⟨rfl, rfl⟩

/-- Claim C5 (amended): decoding never raises past the boundary (every
failure is caught and yields a record), and a date-tag failure degrades only
the date field; but any other per-tag failure is caught only by the outer
handler, which degrades the whole record to `{}` — with a valid camera tag
and a malformed ISO tag the result is empty, lacking `camera` as well. -/
theorem c5_amended :
    (∀ tags, processAll tags = .error () →
      get_exif_data (ImgFile.withExif tags) = []) ∧
    get_exif_data (ImgFile.withExif [("Model", TagValue.str "Canon EOS"),
      ("ISOSpeedRatings", TagValue.malformed)]) = [] ∧
    get_exif_data (ImgFile.withExif [("Model", TagValue.str "Canon EOS"),
      ("DateTimeOriginal", TagValue.malformed)]) =
      [("camera", "Canon EOS")] := by
  refine ⟨?_, rfl, rfl⟩
  intro tags h
  simp [get_exif_data, h]

/-- Claim C5 witness: the general part of `c5_amended` at a concrete tag
list whose processing raises. -/
theorem c5_witness :
    get_exif_data (ImgFile.withExif [("ISOSpeedRatings", TagValue.malformed)]) =
      [] :=
  c5_amended.1 [("ISOSpeedRatings", TagValue.malformed)] rfl

/-- Claim C6 counterexample: the exposure rational `(1, 250)` decodes to
`"1/250秒"`, not to the claimed string `"1/250 seconds"` — the source
renders the unit as `秒`. -/
theorem c6_counterexample :
    dictGet (get_exif_data (ImgFile.withExif
      [("ExposureTime", TagValue.rat 1 250)])) "exposure" = some "1/250秒" ∧
    ("1/250秒" : String) ≠ "1/250 seconds" := by
  exact ⟨rfl, by decide⟩

/-- Claim C6 (amended): the exposure is rendered from the binary64 quotient,
exactly as CPython divides and formats. For an `ExposureTime` rational
`(num, den)`: when `num ≥ den` and the true division `num/den` yields a
finite double `pd`, the field is `fmtFixed1 pd ++ "秒"` (the correctly
rounded `:.1f` rendering of that double, ties to even); when `num < den` and
`den/num` yields a finite double `pd`, the field is
`"1/" ++ fmtFixed0 pd ++ "秒"`; when the division raises
(`ZeroDivisionError` or `OverflowError`), the exception reaches the outer
handler and the whole record degrades to `{}`. In particular `(1, 250)`
renders `"1/250秒"` and `(2, 1)` renders `"2.0秒"` — the unit suffix is
`秒`, not `" seconds"`. -/
theorem c6_amended :
    (∀ (num den : Nat) (pd : Nat × Nat), den ≤ num →
      pyDiv num den = .ok pd →
      dictGet (get_exif_data (ImgFile.withExif
        [("ExposureTime", TagValue.rat num den)])) "exposure" =
        some (fmtFixed1 pd ++ "秒")) ∧
    (∀ (num den : Nat) (pd : Nat × Nat), num < den →
      pyDiv den num = .ok pd →
      dictGet (get_exif_data (ImgFile.withExif
        [("ExposureTime", TagValue.rat num den)])) "exposure" =
        some ("1/" ++ fmtFixed0 pd ++ "秒")) ∧
    (∀ num den : Nat,
      (if den ≤ num then pyDiv num den else pyDiv den num) = .error () →
      get_exif_data (ImgFile.withExif
        [("ExposureTime", TagValue.rat num den)]) = []) ∧
    dictGet (get_exif_data (ImgFile.withExif
      [("ExposureTime", TagValue.rat 1 250)])) "exposure" = some "1/250秒" ∧
    dictGet (get_exif_data (ImgFile.withExif
      [("ExposureTime", TagValue.rat 2 1)])) "exposure" = some "2.0秒" := by
  refine ⟨?_, ?_, ?_, by decide, by decide⟩
  · intro num den pd hdn hok
    simp [get_exif_data, processAll, processLoop, processTag, hdn, hok,
      dictGet]
  · intro num den pd hnd hok
    have hdn : ¬ den ≤ num := by omega
    simp [get_exif_data, processAll, processLoop, processTag, hdn, hok,
      dictGet]
  · intro num den herr
    by_cases hdn : den ≤ num
    · rw [if_pos hdn] at herr
      simp [get_exif_data, processAll, processLoop, processTag, hdn, herr]
    · rw [if_neg hdn] at herr
      simp [get_exif_data, processAll, processLoop, processTag, hdn, herr]

/-- Claim C6 witness: the reciprocal branch of `c6_amended` at `(1, 250)`,
whose division `250/1` yields the dyadic double `250 · 2^45 / 2^45`. -/
theorem c6_witness :
    dictGet (get_exif_data (ImgFile.withExif
      [("ExposureTime", TagValue.rat 1 250)])) "exposure" =
      some ("1/" ++ fmtFixed0 (8796093022208000, 45) ++ "秒") :=
  c6_amended.2.1 1 250 (8796093022208000, 45) (by decide) rfl

/-- Claim C9 counterexample: on undecodable input, `optimize_image` returns
the input image itself — an ordinary image value indistinguishable from a
success, not any recoverable error result; no `ImageDecodeError`-like value
is produced. -/
theorem c9_counterexample : optimize_image Img.corrupt 1920 = Img.corrupt :=
  rfl

/-- Claim C9 (amended): neither operation writes to the filesystem
(`create_thumbnail` returns its filesystem state unchanged; `optimize_image`
takes no filesystem at all) and neither propagates a decoder exception; on
undecodable input `create_thumbnail` returns `None` — a recoverable sentinel
the caller tests — while `optimize_image` swallows the failure and returns
its input unchanged, signalling no error at all. -/
theorem c9_amended :
    (∀ (fs : FS) (path : String) (mw mh : Nat),
      (create_thumbnail fs path mw mh).2 = fs) ∧
    (∀ (fs : FS) (path : String) (mw mh : Nat),
      dictGet fs path = some Img.corrupt →
      (create_thumbnail fs path mw mh).1 = none) ∧
    (∀ max_size : Nat, optimize_image Img.corrupt max_size = Img.corrupt) := by
  refine ⟨fun fs path mw mh => rfl, ?_, fun m => rfl⟩
  intro fs path mw mh h
  simp [create_thumbnail, h, pilThumbnail]

/-- Claim C9 witness: the corrupt-file part of `c9_amended` at a concrete
one-file filesystem. -/
theorem c9_witness :
    (create_thumbnail [("p.jpg", Img.corrupt)] "p.jpg" 300 300).1 = none :=
  c9_amended.2.1 [("p.jpg", Img.corrupt)] "p.jpg" 300 300 (by decide)

theorem exceptMap_ok {α β : Type} {f : α → β} {e : Except Unit α} {r : β}
    (h : Except.map f e = .ok r) : ∃ s, e = .ok s ∧ r = f s := by
  cases e with
  | error u => simp [Except.map] at h
  | ok s => exact ⟨s, rfl, by simpa [Except.map] using h.symm⟩

theorem processTag_keys {acc : Record} {t : String × TagValue} {r : Record}
    (h : processTag acc t = .ok r) :
    ∀ p ∈ r, p.1 ∈ exifKeys ∨ p ∈ acc := by
  intro p hp
  obtain ⟨tag, v⟩ := t
  simp only [processTag] at h
  split at h
  · obtain ⟨s, hs, rfl⟩ := exceptMap_ok h
    rcases mem_dictSet hp with h' | h'
    · exact Or.inl (by simp [h', exifKeys])
    · exact Or.inr h'
  · split at h
    · obtain ⟨s, hs, rfl⟩ := exceptMap_ok h
      rcases mem_dictSet hp with h' | h'
      · exact Or.inl (by simp [h', exifKeys])
      · exact Or.inr h'
    · split at h
      · obtain rfl : (match strOfVal v with
          | .error _ => acc
          | .ok s =>
            match parseExifDate s with
            | none => acc
            | some ds => dictSet acc "date" ds) = r := by
          exact Except.ok.inj h
        split at hp
        · exact Or.inr hp
        · split at hp
          · exact Or.inr hp
          · rcases mem_dictSet hp with h' | h'
            · exact Or.inl (by simp [h', exifKeys])
            · exact Or.inr h'
      · split at h
        · split at h
          · split at h
            · exact absurd h (by simp)
            · obtain rfl := Except.ok.inj h
              rcases mem_dictSet hp with h' | h'
              · exact Or.inl (by simp [h', exifKeys])
              · exact Or.inr h'
          · obtain rfl := Except.ok.inj h
            exact Or.inr hp
        · split at h
          · split at h
            · split at h
              · split at h
                · exact absurd h (by simp)
                · obtain rfl := Except.ok.inj h
                  rcases mem_dictSet hp with h' | h'
                  · exact Or.inl (by simp [h', exifKeys])
                  · exact Or.inr h'
              · split at h
                · exact absurd h (by simp)
                · obtain rfl := Except.ok.inj h
                  rcases mem_dictSet hp with h' | h'
                  · exact Or.inl (by simp [h', exifKeys])
                  · exact Or.inr h'
            · obtain rfl := Except.ok.inj h
              exact Or.inr hp
          · split at h
            · obtain ⟨s, hs, rfl⟩ := exceptMap_ok h
              rcases mem_dictSet hp with h' | h'
              · exact Or.inl (by simp [h', exifKeys])
              · exact Or.inr h'
            · split at h
              · split at h
                · split at h
                  · exact absurd h (by simp)
                  · obtain rfl := Except.ok.inj h
                    rcases mem_dictSet hp with h' | h'
                    · exact Or.inl (by simp [h', exifKeys])
                    · exact Or.inr h'
                · obtain rfl := Except.ok.inj h
                  exact Or.inr hp
              · obtain rfl := Except.ok.inj h
                exact Or.inr hp

theorem processLoop_keys :
    ∀ (tags : List (String × TagValue)) (acc r : Record),
      processLoop acc tags = .ok r →
      ∀ p ∈ r, p.1 ∈ exifKeys ∨ p ∈ acc := by
  intro tags
  induction tags with
  | nil =>
    intro acc r h p hp
    obtain rfl : acc = r := Except.ok.inj h
    exact Or.inr hp
  | cons t rest ih =>
    intro acc r h p hp
    simp only [processLoop] at h
    cases ht : processTag acc t with
    | error u => rw [ht] at h; exact absurd h (by simp)
    | ok acc' =>
      rw [ht] at h
      rcases ih acc' r h p hp with hk | hm
      · exact Or.inl hk
      · rcases processTag_keys ht p hm with hk | hm'
        · exact Or.inl hk
        · exact Or.inr hm'

/-- Claim C10: every entry of a record returned by `get_exif_data` has its
key among the seven fixed field names (`camera`, `lens`, `date`, `f_number`,
`exposure`, `iso`, `focal_length`); the embedding's record type
`List (String × String)` reflects that every stored value is a string. -/
theorem c10_exif_record_keys (f : ImgFile) (p : String × String)
    (hp : p ∈ get_exif_data f) : p.1 ∈ exifKeys := by
  cases f with
  | unreadable => simp [get_exif_data] at hp
  | noExif => simp [get_exif_data] at hp
  | withExif tags =>
    simp only [get_exif_data] at hp
    cases h : processAll tags with
    | error u => rw [h] at hp; simp at hp
    | ok r =>
      rw [h] at hp
      rcases processLoop_keys tags [] r h p hp with hk | hm
      · exact hk
      · simp at hm

/-- Claim C10 witness: `c10_exif_record_keys` applied to a concrete decoded
record. -/
theorem c10_witness : ("camera" : String) ∈ exifKeys :=
  c10_exif_record_keys (ImgFile.withExif [("Model", TagValue.str "X")])
    ("camera", "X") (by decide)

theorem digitVal_digitChar {k : Nat} (hk : k < 10) :
    digitVal (Nat.digitChar k) = k := by
  interval_cases k <;> decide

theorem unreprAux_eq (l : List Char) :
    ∀ a, unreprAux l a = a * 10 ^ l.length + unreprAux l 0 := by
  induction l with
  | nil => intro a; simp [unreprAux]
  | cons c cs ih =>
    intro a
    simp only [unreprAux, List.length_cons]
    rw [ih (a * 10 + digitVal c), ih (0 * 10 + digitVal c)]
    ring

theorem unrepr_toDigitsCore :
    ∀ (fuel n : Nat) (ds : List Char), n < 10 ^ fuel →
      unrepr (Nat.toDigitsCore 10 fuel n ds) =
        n * 10 ^ ds.length + unrepr ds := by
  intro fuel
  induction fuel with
  | zero =>
    intro n ds h
    have hn : n = 0 := by simpa using h
    subst hn
    simp [Nat.toDigitsCore]
  | succ fuel ih =>
    intro n ds h
    have hmod : n % 10 < 10 := Nat.mod_lt n (by omega)
    by_cases h0 : n / 10 = 0
    · have hn10 : n < 10 := by omega
      have hnm : n % 10 = n := Nat.mod_eq_of_lt hn10
      show unrepr (if n / 10 = 0 then Nat.digitChar (n % 10) :: ds
        else Nat.toDigitsCore 10 fuel (n / 10) (Nat.digitChar (n % 10) :: ds)) =
        n * 10 ^ ds.length + unrepr ds
      rw [if_pos h0]
      show unreprAux ds (0 * 10 + digitVal (Nat.digitChar (n % 10))) =
        n * 10 ^ ds.length + unrepr ds
      rw [digitVal_digitChar hmod, hnm]
      simpa using unreprAux_eq ds n
    · have hdiv : n / 10 < 10 ^ fuel := by
        have h10 : (0 : Nat) < 10 := by omega
        rw [Nat.div_lt_iff_lt_mul h10]
        calc n < 10 ^ (fuel + 1) := h
        _ = 10 ^ fuel * 10 := by ring
      show unrepr (if n / 10 = 0 then Nat.digitChar (n % 10) :: ds
        else Nat.toDigitsCore 10 fuel (n / 10) (Nat.digitChar (n % 10) :: ds)) =
        n * 10 ^ ds.length + unrepr ds
      rw [if_neg h0, ih (n / 10) (Nat.digitChar (n % 10) :: ds) hdiv]
      have hcons : unrepr (Nat.digitChar (n % 10) :: ds) =
          (n % 10) * 10 ^ ds.length + unrepr ds := by
        show unreprAux ds (0 * 10 + digitVal (Nat.digitChar (n % 10))) =
          (n % 10) * 10 ^ ds.length + unrepr ds
        rw [digitVal_digitChar hmod]
        simpa using unreprAux_eq ds (n % 10)
      rw [hcons, List.length_cons]
      have hsplit : n = 10 * (n / 10) + n % 10 := (Nat.div_add_mod n 10).symm
      calc n / 10 * 10 ^ (ds.length + 1) +
            ((n % 10) * 10 ^ ds.length + unrepr ds)
          = (10 * (n / 10) + n % 10) * 10 ^ ds.length + unrepr ds := by ring
        _ = n * 10 ^ ds.length + unrepr ds := by rw [← hsplit]

theorem unrepr_repr (n : Nat) : unrepr (Nat.repr n).data = n := by
  have hlt : n < 10 ^ (n + 1) := by
    calc n < 10 ^ n := Nat.lt_pow_self (by omega) n
    _ ≤ 10 ^ (n + 1) := Nat.pow_le_pow_right (by omega) (Nat.le_succ n)
  have h := unrepr_toDigitsCore (n + 1) n [] hlt
  simpa [Nat.repr, Nat.toDigits, List.asString, unrepr, unreprAux] using h

theorem nat_repr_injective : Function.Injective Nat.repr := by
  intro a b h
  have h' := congrArg (fun s => unrepr s.data) h
  simpa [unrepr_repr] using h'

theorem stringMk_append (a b : List Char) :
    (⟨a⟩ : String) ++ (⟨b⟩ : String) = (⟨a ++ b⟩ : String) := rfl

theorem string_data_append (a b : String) : (a ++ b).data = a.data ++ b.data := by
  cases a
  cases b
  rfl

theorem string_length_eq (s : String) : s.length = s.data.length := rfl

theorem nthName_inj (base ext : String) {a b : Nat}
    (h : nthName base ext a = nthName base ext b) : a = b := by
  unfold nthName at h
  have hd := congrArg String.data h
  simp only [string_data_append, List.append_cancel_left_eq,
    List.append_cancel_right_eq] at hd
  have h4 := congrArg unrepr hd
  rwa [unrepr_repr, unrepr_repr] at h4

theorem toDigitsCore_length_ge :
    ∀ (fuel n : Nat) (ds : List Char),
      ds.length ≤ (Nat.toDigitsCore 10 fuel n ds).length := by
  intro fuel
  induction fuel with
  | zero => intro n ds; exact le_refl _
  | succ fuel ih =>
    intro n ds
    show ds.length ≤ (if n / 10 = 0 then Nat.digitChar (n % 10) :: ds
      else Nat.toDigitsCore 10 fuel (n / 10) (Nat.digitChar (n % 10) :: ds)).length
    by_cases h0 : n / 10 = 0
    · rw [if_pos h0]
      simp
    · rw [if_neg h0]
      calc ds.length ≤ (Nat.digitChar (n % 10) :: ds).length := by simp
      _ ≤ _ := ih (n / 10) (Nat.digitChar (n % 10) :: ds)

theorem repr_length_pos (n : Nat) : 1 ≤ (Nat.repr n).length := by
  show 1 ≤ (List.asString (Nat.toDigits 10 n)).length
  have : (List.asString (Nat.toDigits 10 n)).length = (Nat.toDigits 10 n).length :=
    rfl
  rw [this]
  show 1 ≤ (Nat.toDigitsCore 10 (n + 1) n []).length
  show 1 ≤ (if n / 10 = 0 then Nat.digitChar (n % 10) :: ([] : List Char)
    else Nat.toDigitsCore 10 n (n / 10) (Nat.digitChar (n % 10) :: [])).length
  by_cases h0 : n / 10 = 0
  · rw [if_pos h0]; simp
  · rw [if_neg h0]
    calc 1 = ([Nat.digitChar (n % 10)] : List Char).length := by simp
    _ ≤ _ := toDigitsCore_length_ge n (n / 10) [Nat.digitChar (n % 10)]

theorem nthName_ne_append (base ext : String) (n : Nat) :
    nthName base ext n ≠ base ++ ext := by
  intro h
  have hlen := congrArg String.length h
  simp only [nthName, string_length_eq, string_data_append,
    List.length_append] at hlen
  have h1 := repr_length_pos n
  rw [string_length_eq] at h1
  have h2 : ("_" : String).data.length = 1 := rfl
  omega

theorem splitext_append (s : String) : (splitext s).1 ++ (splitext s).2 = s := by
  unfold splitext splitextData
  cases h : s.data.reverse.findIdx? (· = '.') with
  | none =>
    show (⟨s.data⟩ : String) ++ (⟨[]⟩ : String) = s
    rw [stringMk_append, List.append_nil]
  | some i =>
    by_cases hdots : (s.data.take (s.data.length - 1 - i)).all (· = '.')
    · simp only [hdots, if_pos]
      show (⟨s.data⟩ : String) ++ (⟨[]⟩ : String) = s
      rw [stringMk_append, List.append_nil]
    · simp only [hdots]
      rw [if_neg (by simp [hdots])]
      show (⟨s.data.take (s.data.length - 1 - i)⟩ : String) ++
        (⟨s.data.drop (s.data.length - 1 - i)⟩ : String) = s
      rw [stringMk_append, List.take_append_drop]

theorem exists_fresh_nthName (used : List String) (base ext : String) :
    ∃ n, 1 ≤ n ∧ n ≤ used.length + 1 ∧ nthName base ext n ∉ used := by
  by_contra hc
  push_neg at hc
  have hinj : Function.Injective
      (fun i : Fin (used.length + 1) => nthName base ext (i.1 + 1)) := by
    intro i j hij
    have := nthName_inj base ext hij
    exact Fin.ext (by omega)
  have hmap : ∀ i : Fin (used.length + 1),
      nthName base ext (i.1 + 1) ∈ used.toFinset := by
    intro i
    rw [List.mem_toFinset]
    exact hc (i.1 + 1) (by omega) (by omega)
  have hcard : (Finset.univ : Finset (Fin (used.length + 1))).card ≤
      used.toFinset.card :=
    Finset.card_le_card_of_injOn
      (fun i : Fin (used.length + 1) => nthName base ext (i.1 + 1))
      (fun i _ => hmap i) (hinj.injOn)
  have h1 : (Finset.univ : Finset (Fin (used.length + 1))).card =
      used.length + 1 := by simp
  have h2 := used.toFinset_card_le
  omega

theorem probeName_spec (used : List String) (base ext : String) :
    ∀ (fuel c : Nat),
      (∃ n, c ≤ n ∧ n < c + fuel ∧ nthName base ext n ∉ used) →
      ∃ n, probeName used base ext fuel c = some (nthName base ext n) ∧
        c ≤ n ∧ nthName base ext n ∉ used ∧
        ∀ m, c ≤ m → m < n → nthName base ext m ∈ used := by
  intro fuel
  induction fuel with
  | zero =>
    intro c hex
    obtain ⟨n, h1, h2, _⟩ := hex
    omega
  | succ fuel ih =>
    intro c hex
    by_cases hc : nthName base ext c ∈ used
    · obtain ⟨n, hn1, hn2, hn3⟩ := hex
      have hne : n ≠ c := fun h => hn3 (h ▸ hc)
      obtain ⟨n', h1', h2', h3', h4'⟩ :=
        ih (c + 1) ⟨n, by omega, by omega, hn3⟩
      refine ⟨n', ?_, by omega, h3', ?_⟩
      · show (if nthName base ext c ∈ used then
          probeName used base ext fuel (c + 1)
          else some (nthName base ext c)) = some (nthName base ext n')
        rw [if_pos hc]
        exact h1'
      · intro m hm1 hm2
        rcases Nat.eq_or_lt_of_le hm1 with rfl | hlt
        · exact hc
        · exact h4' m (by omega) hm2
    · refine ⟨c, ?_, le_refl c, hc, ?_⟩
      · show (if nthName base ext c ∈ used then
          probeName used base ext fuel (c + 1)
          else some (nthName base ext c)) = some (nthName base ext c)
        rw [if_neg hc]
      · intro m h1 h2
        omega

theorem resolveIdentity_of_not_mem {used : List String} {fn : String}
    (h : fn ∉ used) : resolveIdentity used fn = some fn := by
  simp [resolveIdentity, h]

theorem resolveIdentity_of_mem {used : List String} {fn : String}
    (h : fn ∈ used) :
    ∃ n, 1 ≤ n ∧
      resolveIdentity used fn =
        some (nthName (splitext fn).1 (splitext fn).2 n) ∧
      nthName (splitext fn).1 (splitext fn).2 n ∉ used ∧
      ∀ m, 1 ≤ m → m < n →
        nthName (splitext fn).1 (splitext fn).2 m ∈ used := by
  obtain ⟨n, h1, h2, h3⟩ :=
    exists_fresh_nthName used (splitext fn).1 (splitext fn).2
  obtain ⟨n', h1', h2', h3', h4'⟩ :=
    probeName_spec used (splitext fn).1 (splitext fn).2 (used.length + 1) 1
      ⟨n, h1, by omega, h3⟩
  refine ⟨n', h2', ?_, h3', h4'⟩
  simp [resolveIdentity, h]
  exact h1'

theorem resolveIdentity_fresh {used : List String} {fn r : String}
    (h : resolveIdentity used fn = some r) : r ∉ used := by
  by_cases hm : fn ∈ used
  · obtain ⟨n, _, h2, h3, _⟩ := resolveIdentity_of_mem hm
    rw [h] at h2
    obtain rfl := Option.some.inj h2
    exact h3
  · rw [resolveIdentity_of_not_mem hm] at h
    obtain rfl := Option.some.inj h
    exact hm

theorem resolveIdentity_exact {used : List String} {fn : String}
    (hmem : fn ∈ used) (i : Nat) (hi : 1 ≤ i)
    (hlt : ∀ j, 1 ≤ j → j < i →
      nthName (splitext fn).1 (splitext fn).2 j ∈ used)
    (hfree : nthName (splitext fn).1 (splitext fn).2 i ∉ used) :
    resolveIdentity used fn =
      some (nthName (splitext fn).1 (splitext fn).2 i) := by
  obtain ⟨n, hn1, hn2, hn3, hn4⟩ := resolveIdentity_of_mem hmem
  have heq : n = i := by
    rcases lt_trichotomy n i with h | h | h
    · exact absurd (hlt n hn1 h) hn3
    · exact h
    · exact absurd (hn4 i hi h) hfree
  rw [heq] at hn2
  exact hn2

theorem uploadSeq_not_mem (fn : String) :
    ∀ (k : Nat) (u : List String) (x : String),
      x ∈ uploadSeq fn u k → x ∉ u := by
  intro k
  induction k with
  | zero =>
    intro u x hx
    simp [uploadSeq] at hx
  | succ k ih =>
    intro u x hx
    simp only [uploadSeq] at hx
    cases hr : resolveIdentity u fn with
    | none => rw [hr] at hx; simp at hx
    | some r =>
      rw [hr] at hx
      rcases List.mem_cons.mp hx with rfl | hx'
      · exact resolveIdentity_fresh hr
      · intro hxu
        exact (ih (r :: u) x hx') (List.mem_cons_of_mem _ hxu)

theorem uploadSeq_nodup (fn : String) :
    ∀ (k : Nat) (u : List String), (uploadSeq fn u k).Nodup := by
  intro k
  induction k with
  | zero => intro u; simp [uploadSeq]
  | succ k ih =>
    intro u
    simp only [uploadSeq]
    cases hr : resolveIdentity u fn with
    | none => simp
    | some r =>
      refine List.nodup_cons.mpr ⟨?_, ih (r :: u)⟩
      intro hmem
      exact (uploadSeq_not_mem fn k (r :: u) r hmem) (List.mem_cons_self r u)

theorem uploadSeq_invariant (fn b e : String) (hbe : splitext fn = (b, e)) :
    ∀ (k i : Nat) (u : List String), 1 ≤ i → fn ∈ u →
      (∀ j, 1 ≤ j → j < i → nthName b e j ∈ u) →
      (∀ j, i ≤ j → nthName b e j ∉ u) →
      uploadSeq fn u k = (List.range' i k).map (nthName b e) := by
  intro k
  induction k with
  | zero =>
    intro i u _ _ _ _
    simp [uploadSeq]
  | succ k ih =>
    intro i u hi hmem hin hout
    have hres : resolveIdentity u fn = some (nthName b e i) := by
      have h := resolveIdentity_exact hmem i hi
        (by rw [hbe]; exact hin) (by rw [hbe]; exact hout i (le_refl i))
      rwa [hbe] at h
    simp only [uploadSeq, hres]
    rw [List.range'_succ, List.map_cons]
    congr 1
    apply ih (i + 1) (nthName b e i :: u) (by omega)
      (List.mem_cons_of_mem _ hmem)
    · intro j hj1 hj2
      by_cases hji : j = i
      · exact hji ▸ List.mem_cons_self _ _
      · exact List.mem_cons_of_mem _ (hin j hj1 (by omega))
    · intro j hj hmem'
      rcases List.mem_cons.mp hmem' with heq | hmem''
      · have := nthName_inj b e heq
        omega
      · exact hout j (by omega) hmem''

/-- Claim C3: identity resolution keeps the desired name `base ++ ext` when
it is unused in the category directory, and otherwise returns
`{base}_{n}{ext}` for the smallest positive `n` making the name unused;
consequently sequential uploads of one filename yield pairwise distinct
identities, and into a directory fresh for that name the `k+1` uploads
resolve to the name itself followed by suffixes `_1, _2, …, _k`. -/
theorem c3_identity_resolution :
    (∀ fn : String, (splitext fn).1 ++ (splitext fn).2 = fn) ∧
    (∀ (used : List String) (fn : String), fn ∉ used →
      resolveIdentity used fn = some fn) ∧
    (∀ (used : List String) (fn : String), fn ∈ used →
      ∃ n, 1 ≤ n ∧
        resolveIdentity used fn =
          some (nthName (splitext fn).1 (splitext fn).2 n) ∧
        nthName (splitext fn).1 (splitext fn).2 n ∉ used ∧
        ∀ m, 1 ≤ m → m < n →
          nthName (splitext fn).1 (splitext fn).2 m ∈ used) ∧
    (∀ (fn : String) (d0 : List String) (k : Nat),
      (uploadSeq fn d0 k).Nodup) ∧
    (∀ (fn : String) (d0 : List String) (k : Nat),
      fn ∉ d0 →
      (∀ n, 1 ≤ n → nthName (splitext fn).1 (splitext fn).2 n ∉ d0) →
      uploadSeq fn d0 (k + 1) =
        fn :: (List.range' 1 k).map
          (nthName (splitext fn).1 (splitext fn).2)) := by
  refine ⟨splitext_append, fun used fn h => resolveIdentity_of_not_mem h,
    fun used fn h => resolveIdentity_of_mem h,
    fun fn d0 k => uploadSeq_nodup fn k d0, ?_⟩
  intro fn d0 k h0 hfresh
  have hres : resolveIdentity d0 fn = some fn := resolveIdentity_of_not_mem h0
  simp only [uploadSeq, hres]
  congr 1
  apply uploadSeq_invariant fn (splitext fn).1 (splitext fn).2 rfl k 1
    (fn :: d0) (le_refl 1) (List.mem_cons_self _ _)
  · intro j hj1 hj2
    omega
  · intro j hj hmem
    rcases List.mem_cons.mp hmem with heq | hmem'
    · have hne := nthName_ne_append (splitext fn).1 (splitext fn).2 j
      rw [splitext_append] at hne
      exact hne heq
    · exact hfresh j hj hmem'

/-- Claim C3 witness: the sequential-upload part of `c3_identity_resolution`
at a fresh empty directory, three uploads of `"a.jpg"`. -/
theorem c3_witness : uploadSeq "a.jpg" [] 3 = ["a.jpg", "a_1.jpg", "a_2.jpg"] := by
  have h := c3_identity_resolution.2.2.2.2 "a.jpg" [] 2 (by decide)
    (fun n _ => by simp)
  rw [h]
  decide

theorem dictGet_dictInsertAll_of_not_mem {α : Type}
    (ps : List (String × α)) :
    ∀ (d : List (String × α)) (k : String), (∀ q ∈ ps, q.1 ≠ k) →
      dictGet (dictInsertAll d ps) k = dictGet d k := by
  induction ps with
  | nil => intro d k _; rfl
  | cons p ps ih =>
    intro d k h
    have h1 : p.1 ≠ k := h p (List.mem_cons_self _ _)
    have hstep : dictInsertAll d (p :: ps) =
        dictInsertAll (dictSet d p.1 p.2) ps := rfl
    rw [hstep, ih (dictSet d p.1 p.2) k
      (fun q hq => h q (List.mem_cons_of_mem _ hq))]
    exact dictGet_dictSet_ne d p.2 h1

theorem dictGet_dictInsertAll_of_mem {α : Type} (ps : List (String × α)) :
    ∀ (d : List (String × α)) (k : String) (v : α),
      (ps.map Prod.fst).Nodup → (k, v) ∈ ps →
      dictGet (dictInsertAll d ps) k = some v := by
  induction ps with
  | nil =>
    intro d k v _ h
    simp at h
  | cons p ps ih =>
    intro d k v hnd hmem
    simp only [List.map_cons, List.nodup_cons] at hnd
    rcases List.mem_cons.mp hmem with rfl | hm
    · have hk : ∀ q ∈ ps, q.1 ≠ (k, v).1 := by
        intro q hq heq
        exact hnd.1 (heq ▸ List.mem_map.mpr ⟨q, hq, rfl⟩)
      have hstep : dictInsertAll d ((k, v) :: ps) =
          dictInsertAll (dictSet d k v) ps := rfl
      rw [hstep, dictGet_dictInsertAll_of_not_mem ps _ k hk]
      exact dictGet_dictSet_self _ _ _
    · exact ih (dictSet d p.1 p.2) k v hnd.2 hm

theorem dictGet_of_mem_of_nodup {α : Type} :
    ∀ {d : List (String × α)} {k : String} {v : α},
      (d.map Prod.fst).Nodup → (k, v) ∈ d → dictGet d k = some v := by
  intro d
  induction d with
  | nil =>
    intro k v _ h
    simp at h
  | cons p t ih =>
    intro k v hnd hmem
    obtain ⟨a, b⟩ := p
    simp only [List.map_cons, List.nodup_cons] at hnd
    rcases List.mem_cons.mp hmem with heq | hm
    · obtain ⟨rfl, rfl⟩ := Prod.mk.inj heq.symm
      simp [dictGet]
    · have hak : a ≠ k := by
        intro heq
        subst heq
        exact hnd.1 (List.mem_map.mpr ⟨(a, v), hm, rfl⟩)
      simp only [dictGet, if_neg hak]
      exact ih hnd.2 hm

theorem processTag_shape {acc : Record} {t : String × TagValue} {r : Record}
    (h : processTag acc t = .ok r) :
    r = acc ∨ ∃ k v, k ∈ exifKeys ∧ r = dictSet acc k v := by
  obtain ⟨tag, v⟩ := t
  simp only [processTag] at h
  split at h
  · obtain ⟨s, hs, rfl⟩ := exceptMap_ok h
    exact Or.inr ⟨"camera", _, by simp [exifKeys], rfl⟩
  · split at h
    · obtain ⟨s, hs, rfl⟩ := exceptMap_ok h
      exact Or.inr ⟨"lens", _, by simp [exifKeys], rfl⟩
    · split at h
      · obtain rfl := Except.ok.inj h
        split
        · exact Or.inl rfl
        · split
          · exact Or.inl rfl
          · exact Or.inr ⟨"date", _, by simp [exifKeys], rfl⟩
      · split at h
        · split at h
          · split at h
            · exact absurd h (by simp)
            · obtain rfl := Except.ok.inj h
              exact Or.inr ⟨"f_number", _, by simp [exifKeys], rfl⟩
          · obtain rfl := Except.ok.inj h
            exact Or.inl rfl
        · split at h
          · split at h
            · split at h
              · split at h
                · exact absurd h (by simp)
                · obtain rfl := Except.ok.inj h
                  exact Or.inr ⟨"exposure", _, by simp [exifKeys], rfl⟩
              · split at h
                · exact absurd h (by simp)
                · obtain rfl := Except.ok.inj h
                  exact Or.inr ⟨"exposure", _, by simp [exifKeys], rfl⟩
            · obtain rfl := Except.ok.inj h
              exact Or.inl rfl
          · split at h
            · obtain ⟨s, hs, rfl⟩ := exceptMap_ok h
              exact Or.inr ⟨"iso", _, by simp [exifKeys], rfl⟩
            · split at h
              · split at h
                · split at h
                  · exact absurd h (by simp)
                  · obtain rfl := Except.ok.inj h
                    exact Or.inr ⟨"focal_length", _, by simp [exifKeys], rfl⟩
                · obtain rfl := Except.ok.inj h
                  exact Or.inl rfl
              · obtain rfl := Except.ok.inj h
                exact Or.inl rfl

theorem mem_keys_dictSet {α : Type} {d : List (String × α)} {k x : String}
    {v : α} (h : x ∈ (dictSet d k v).map Prod.fst) :
    x = k ∨ x ∈ d.map Prod.fst := by
  obtain ⟨q, hq, rfl⟩ := List.mem_map.mp h
  rcases mem_dictSet hq with h' | h'
  · exact Or.inl (by rw [h'])
  · exact Or.inr (List.mem_map.mpr ⟨q, h', rfl⟩)

theorem keys_nodup_dictSet {α : Type} :
    ∀ (d : List (String × α)) (k : String) (v : α),
      (d.map Prod.fst).Nodup → ((dictSet d k v).map Prod.fst).Nodup := by
  intro d
  induction d with
  | nil =>
    intro k v _
    simp [dictSet]
  | cons q t ih =>
    intro k v hnd
    obtain ⟨a, b⟩ := q
    simp only [List.map_cons, List.nodup_cons] at hnd
    by_cases hq : a = k
    · subst hq
      have hset : dictSet ((a, b) :: t) a v = (a, v) :: t := by
        simp [dictSet]
      rw [hset]
      simp only [List.map_cons, List.nodup_cons]
      exact ⟨hnd.1, hnd.2⟩
    · simp only [dictSet, if_neg hq, List.map_cons, List.nodup_cons]
      refine ⟨?_, ih k v hnd.2⟩
      intro hmem
      rcases mem_keys_dictSet hmem with rfl | h'
      · exact hq rfl
      · exact hnd.1 h'

theorem processLoop_keys_nodup :
    ∀ (tags : List (String × TagValue)) (acc r : Record),
      processLoop acc tags = .ok r → (acc.map Prod.fst).Nodup →
      (r.map Prod.fst).Nodup := by
  intro tags
  induction tags with
  | nil =>
    intro acc r h hnd
    obtain rfl := Except.ok.inj h
    exact hnd
  | cons t rest ih =>
    intro acc r h hnd
    simp only [processLoop] at h
    cases ht : processTag acc t with
    | error e => rw [ht] at h; exact absurd h (by simp)
    | ok acc' =>
      rw [ht] at h
      rcases processTag_shape ht with rfl | ⟨k, v, _, rfl⟩
      · exact ih _ r h hnd
      · exact ih _ r h (keys_nodup_dictSet acc k v hnd)

theorem getExifData_keys_nodup (f : ImgFile) :
    ((get_exif_data f).map Prod.fst).Nodup := by
  cases f with
  | unreadable => simp [get_exif_data]
  | noExif => simp [get_exif_data]
  | withExif tags =>
    simp only [get_exif_data]
    cases h : processAll tags with
    | error e => simp
    | ok r => exact processLoop_keys_nodup tags [] r h (by simp)

theorem getExifData_keys (f : ImgFile) {p : String × String}
    (hp : p ∈ get_exif_data f) : p.1 ∈ exifKeys := by
  cases f with
  | unreadable => simp [get_exif_data] at hp
  | noExif => simp [get_exif_data] at hp
  | withExif tags =>
    simp only [get_exif_data] at hp
    cases h : processAll tags with
    | error u => rw [h] at hp; simp at hp
    | ok r =>
      rw [h] at hp
      rcases processLoop_keys tags [] r h p hp with hk | hm
      · exact hk
      · simp at hm

/-- Claim C8 counterexample: a concrete successful ingest stores a record
with `category`, `upload_date` and defaulted `title`, but with NO `comments`
entry — the claimed `comments: []` field is never written by the source. -/
theorem c8_counterexample :
    dictGet ((save_uploaded_photo [] "IMG_1.jpg" "風景" ImgFile.noExif
        ⟨some []⟩ "2024-01-01 12:00:00").2.2.photos.getD []) "IMG_1.jpg" =
      some [("category", "風景"), ("upload_date", "2024-01-01 12:00:00"),
        ("title", "IMG_1")] ∧
    (dictGet ((save_uploaded_photo [] "IMG_1.jpg" "風景" ImgFile.noExif
        ⟨some []⟩ "2024-01-01 12:00:00").2.2.photos.getD [])
        "IMG_1.jpg").bind (fun r => dictGet r "comments") = none := by
  exact ⟨rfl, rfl⟩

/-- Claim C8 (amended): a successful ingest returns `(True, fn)` for the
resolved identity `fn` (which may differ from the requested filename), adds
`fn` to the category directory, and stores under `fn` the record
`{category, upload_date: now, title: base of fn, **exif}` — the decoded EXIF
fields are merged in, but no `comments` field exists in the record. -/
theorem c8_amended (used : List String) (name category : String)
    (file : ImgFile) (m : Metadata) (now fn : String)
    (h : resolveIdentity used name = some fn) :
    (save_uploaded_photo used name category file m now).1 = (true, fn) ∧
    (save_uploaded_photo used name category file m now).2.1 = fn :: used ∧
    ∃ r : Record,
      dictGet ((save_uploaded_photo used name category file m
        now).2.2.photos.getD []) fn = some r ∧
      dictGet r "category" = some category ∧
      dictGet r "upload_date" = some now ∧
      dictGet r "title" = some (splitext fn).1 ∧
      dictGet r "comments" = none ∧
      ∀ k v, (k, v) ∈ get_exif_data file → dictGet r k = some v := by
  have hnotin : ∀ key : String, key ∉ exifKeys →
      ∀ q ∈ get_exif_data file, q.1 ≠ key := by
    intro key hkey q hq heq
    exact hkey (heq ▸ getExifData_keys file hq)
  simp only [save_uploaded_photo, h]
  refine ⟨trivial, trivial,
    dictInsertAll [("category", category), ("upload_date", now),
      ("title", (splitext fn).1)] (get_exif_data file), ?_, ?_, ?_, ?_, ?_, ?_⟩
  · exact dictGet_dictSet_self _ _ _
  · rw [dictGet_dictInsertAll_of_not_mem _ _ _
      (hnotin "category" (by simp [exifKeys]))]
    simp [dictGet]
  · rw [dictGet_dictInsertAll_of_not_mem _ _ _
      (hnotin "upload_date" (by simp [exifKeys]))]
    simp [dictGet]
  · rw [dictGet_dictInsertAll_of_not_mem _ _ _
      (hnotin "title" (by simp [exifKeys]))]
    simp [dictGet]
  · rw [dictGet_dictInsertAll_of_not_mem _ _ _
      (hnotin "comments" (by simp [exifKeys]))]
    simp [dictGet]
  · intro k v hkv
    exact dictGet_dictInsertAll_of_mem _ _ k v
      (by simpa using getExifData_keys_nodup file) hkv

/-- Claim C8 witness: `c8_amended` at a concrete ingest with no EXIF data. -/
theorem c8_witness :
    (save_uploaded_photo [] "IMG_1.jpg" "風景" ImgFile.noExif ⟨some []⟩
      "2024-01-01 12:00:00").1 = (true, "IMG_1.jpg") ∧
    (save_uploaded_photo [] "IMG_1.jpg" "風景" ImgFile.noExif ⟨some []⟩
      "2024-01-01 12:00:00").2.1 = ["IMG_1.jpg"] ∧
    ∃ r : Record,
      dictGet ((save_uploaded_photo [] "IMG_1.jpg" "風景" ImgFile.noExif
        ⟨some []⟩ "2024-01-01 12:00:00").2.2.photos.getD []) "IMG_1.jpg" =
        some r ∧
      dictGet r "category" = some "風景" ∧
      dictGet r "upload_date" = some "2024-01-01 12:00:00" ∧
      dictGet r "title" = some (splitext "IMG_1.jpg").1 ∧
      dictGet r "comments" = none ∧
      ∀ k v, (k, v) ∈ get_exif_data ImgFile.noExif → dictGet r k = some v :=
  c8_amended [] "IMG_1.jpg" "風景" ImgFile.noExif ⟨some []⟩
    "2024-01-01 12:00:00" "IMG_1.jpg" (by decide)
